import Mathlib

/-!
Shallow embedding of the reduced Collatz solver (src/main.py).

All trajectory values are nonnegative, so the arithmetic core is embedded
over ℕ (Python `//` on nonnegatives is Nat division, `x >> k` is `x / 2^k`).
The functions of the source that take an `int` and explicitly guard against
`n <= 0` (`nu2`, `E4_exit`, `reduced_collatz_solver`, and `odd_part`, which
raises through its internal `nu2` call) are additionally embedded over ℤ
with an `Except Err` result, so the raising behaviour is visible.
Unbounded `while` loops (`reduced_collatz_solver`, `solve_C4_hub`) are
modelled with an explicit fuel parameter; running out of fuel yields `none`,
a model artifact distinct from either Python exception.
-/

/-- The two error kinds of the program: `ValueError` for violated
positivity preconditions, `RuntimeError` for exhausted bounded scans and
unreachable branches. -/
inductive Err where
  | invalidInput : Err
  | internalInvariant : Err
deriving DecidableEq, Repr

/-- Fuel-structured 2-adic valuation: `nu2go fuel n` halves `n` while it is
even and nonzero, counting the halvings.  With `fuel ≥ n` this is the exact
2-adic valuation of a positive `n`. -/
def nu2go : Nat → Nat → Nat
  | 0, _ => 0
  | fuel + 1, n => if n % 2 = 0 ∧ n ≠ 0 then nu2go fuel (n / 2) + 1 else 0

/-- `nu2` restricted to positive arguments (the only ones the program ever
passes internally).  The Python source computes `(n & -n).bit_length() - 1`,
which for `n > 0` is exactly the 2-adic valuation ν₂(n), since `n & -n` is
the largest power of two dividing `n`. -/
def nu2N (n : Nat) : Nat := nu2go n n

/-- `nu2(n)` of the source over `int`: raises `InvalidInput` for `n ≤ 0`. -/
def nu2 (n : Int) : Except Err Nat :=
  if n ≤ 0 then .error .invalidInput else .ok (nu2N n.toNat)

/-- `odd_part` restricted to positive arguments: `n >> nu2(n)`. -/
def odd_partN (n : Nat) : Nat := n / 2 ^ nu2N n

/-- `odd_part(n)` of the source over `int`: `n >> nu2(n)`, so the
`InvalidInput` failure of the internal `nu2` call propagates. -/
def odd_part (n : Int) : Except Err Int :=
  match nu2 n with
  | .error e => .error e
  | .ok k => .ok (n / 2 ^ k)

/-- Fuel-structured bit length: `bit_length_go fuel n` counts halvings until
zero; with `fuel ≥ n` this is Python's `n.bit_length()`. -/
def bit_length_go : Nat → Nat → Nat
  | 0, _ => 0
  | fuel + 1, n => if n = 0 then 0 else bit_length_go fuel (n / 2) + 1

/-- Python's `n.bit_length()` for a natural number. -/
def bit_length (n : Nat) : Nat := bit_length_go n n

/-- `in_residue_set_mod20(n, residues)`. -/
def in_residue_set_mod20 (n : Nat) (residues : List Nat) : Bool :=
  residues.contains (n % 20)

/-- The primitive Collatz map `T`. -/
def T (n : Nat) : Nat := if n % 2 = 0 then n / 2 else 3 * n + 1

/-- `E0_exit`: exit map for the 0-component. -/
def E0_exit (n : Nat) : Nat :=
  if n % 10 ≠ 0 then n / 2
  else 5 * odd_partN (n / 10)

/-- `E8_exit`: exit map for the 8↔9 component.  Python tests
`(n - 18) % 20 != 0` over `int`; over the nonnegative values in play that
is exactly `n % 20 ≠ 18`. -/
def E8_exit (n : Nat) : Nat :=
  if n % 20 ≠ 18 then n / 2
  else
    let m := (n + 2) / 20
    let a := nu2N m
    let r := odd_partN m
    (10 * 3 ^ (a + 1) * r - 2) / 2

/-- The source's `F6_macro(n) = 3 * odd(3n+2) + 1`. -/
def F6map (n : Nat) : Nat := 3 * odd_partN (3 * n + 2) + 1

/-- The residue set `C6` of the 6-component. -/
def C6 : List Nat := [0, 3, 5, 6]

/-- The bounded scan inside `E6_exit`: at most `fuel` iterations of
`fk := F6(fk)`, stopping as soon as `fk` leaves `C6`. -/
def E6go : Nat → Nat → Nat
  | 0, fk => fk
  | fuel + 1, fk =>
      if in_residue_set_mod20 fk C6 then E6go fuel (F6map fk) else fk

/-- `E6_exit`: bounded macro-scan exit routine for the 6-component,
iteration cap `B = bitlen(3n+2)`. -/
def E6_exit (n : Nat) : Nat :=
  if ¬ in_residue_set_mod20 n C6 then n / 2
  else E6go (bit_length (3 * n + 2)) n / 2

/-- The source's `F4_macro(n) = 3*odd(3*odd(3*odd(n)+1)+1)+1`. -/
def F4map (n : Nat) : Nat :=
  let a := odd_partN n
  let b := odd_partN (3 * a + 1)
  let c := odd_partN (3 * b + 1)
  3 * c + 1

/-- `_in_C4_by_last_digit`: membership in the digit cycle {1,2,4,7} mod 10,
with `x = 1` excluded as terminal. -/
def in_C4_by_last_digit (x : Nat) : Bool :=
  if x = 1 then false
  else x % 10 = 1 ∨ x % 10 = 2 ∨ x % 10 = 4 ∨ x % 10 = 7

/-- The scan `for r in range(1, t+1)` of `_micro_step_checker_C4`:
`microGo a r k` tests the `k` candidates `a >> r, a >> (r+1), ...`,
returning the first that has left the digit cycle. -/
def microGo (a : Nat) : Nat → Nat → Option Nat
  | _, 0 => none
  | r, k + 1 =>
      let cand := a / 2 ^ r
      if ¬ in_C4_by_last_digit cand then some cand else microGo a (r + 1) k

/-- `_micro_step_checker_C4`. -/
def micro_step_checker_C4 (n : Nat) : Option Nat :=
  let a := 3 * odd_partN n + 1
  let t := nu2N a
  microGo a 1 t

/-- The `while a % 2 == 0` stripping loop of
`_check_internal_for_leaving_C4`: returns `.inl v` when a candidate
leaving the cycle is found, `.inr a` with `a` odd otherwise.  The loop
halves its (positive, even) argument at each step, so `a + 1` units of fuel
always exceed the number of iterations the Python loop performs on `a`. -/
def stripGo : Nat → Nat → Sum Nat Nat
  | 0, a => .inr a
  | fuel + 1, a =>
      if a % 2 = 0 then
        if ¬ in_C4_by_last_digit a then .inl a else stripGo fuel (a / 2)
      else .inr a

/-- The source's `_check_macro_internal_for_leaving_C4`. -/
def check_internal_for_leaving_C4 (fk : Nat) : Option Nat :=
  let a0 := fk / 2
  match stripGo (a0 + 1) a0 with
  | .inl found => some found
  | .inr a =>
      match micro_step_checker_C4 a with
      | some res => some res
      | none => micro_step_checker_C4 (3 * a + 1)

/-- The outer bounded loop of `E4_exit`: `fuel` iterations of
(candidate scan, then `fk := F4(fk)`); exhaustion raises
`InternalInvariantViolation`. -/
def E4go : Nat → Nat → Except Err Nat
  | 0, _ => .error .internalInvariant
  | fuel + 1, fk =>
      match check_internal_for_leaving_C4 fk with
      | some found => .ok found
      | none => E4go fuel (F4map fk)

/-- The iteration cap `E4_exit` actually computes: `UB = bitlen(3*n0+2)`.
(The docstring of the source claims `UB = bitlen(3n0+2) + ν2(3n0+2)`.) -/
def E4_UB (n0 : Nat) : Nat := bit_length (3 * n0 + 2)

/-- The body of `E4_exit` after its positivity guard: at most `UB + 1`
iterations of the bounded scan. -/
def E4_core (n0 : Nat) : Except Err Nat := E4go (E4_UB n0 + 1) n0

/-- `E4_exit(n0)` over `int`: raises `InvalidInput` for `n0 ≤ 0`. -/
def E4_exit (n0 : Int) : Except Err Nat :=
  if n0 ≤ 0 then .error .invalidInput else E4_core n0.toNat

/-- The `while True` loop of `solve_C4_hub`, with fuel.  The state is kept
in ℤ because the loop re-enters `E4_exit` (whose guard is over `int`);
after the first step the state is the natural number `E8(E6(a))`. -/
def hubLoop : Nat → Int → Option (Except Err Nat)
  | 0, _ => none
  | fuel + 1, n =>
      match E4_exit n with
      | .error e => some (.error e)
      | .ok a =>
          if a = 1 then some (.ok 1)
          else hubLoop fuel ((E8_exit (E6_exit a) : Nat) : Int)

/-- `solve_C4_hub(n)` with fuel (the Python loop is unbounded). -/
def solve_C4_hub (fuel : Nat) (n : Int) : Option (Except Err Nat) :=
  hubLoop fuel n

/-- `_prefix_is_even`. -/
def prefix_is_even (n : Nat) : Bool := (n / 10) % 2 = 0

/-- One iteration of the `while n >= 10` dispatch of
`reduced_collatz_solver` (the body of the loop, for `n ≥ 10`): either the
next trajectory value or the error the iteration raises. -/
def routerStep (n : Nat) : Except Err Nat :=
  let d := n % 10
  if d = 0 then .ok (E0_exit n)
  else if d = 1 ∨ d = 3 ∨ d = 5 ∨ d = 7 ∨ d = 9 then .ok (3 * n + 1)
  else if d = 2 then
    .ok (if prefix_is_even n then (n / 2) * 3 + 1 else n / 2)
  else if d = 4 then E4_exit (n : Int)
  else if d = 6 then .ok (E6_exit n)
  else if d = 8 then .ok (E8_exit n)
  else .error .internalInvariant

/-- The `while n >= 10` loop of `reduced_collatz_solver`, with fuel. -/
def solveLoop : Nat → Nat → Option (Except Err Nat)
  | 0, _ => none
  | fuel + 1, n =>
      if n < 10 then some (.ok 1)
      else
        match routerStep n with
        | .ok v => solveLoop fuel v
        | .error e => some (.error e)

/-- `reduced_collatz_solver(n)` over `int`, with fuel for the main loop:
raises `InvalidInput` for `n ≤ 0` before the loop starts. -/
def reduced_collatz_solver (fuel : Nat) (n : Int) : Option (Except Err Nat) :=
  if n ≤ 0 then some (.error .invalidInput) else solveLoop fuel n.toNat

/-- Brute-force reference: iterate the primitive Collatz map `T` until the
value reaches 1, with fuel. -/
def bruteGo : Nat → Nat → Nat
  | 0, n => n
  | fuel + 1, n => if n = 1 then 1 else bruteGo fuel (T n)

/-! ### Reachability along the router and along the primitive map -/

def RouterStepRel (a b : Nat) : Prop := 10 ≤ a ∧ routerStep a = .ok b

def RouterReaches : Nat → Nat → Prop := Relation.ReflTransGen RouterStepRel

def SolveTerminates (n : Nat) : Prop := ∃ fuel, solveLoop fuel n = some (.ok 1)

def TStepRel (a b : Nat) : Prop := T a = b

def TReaches : Nat → Nat → Prop := Relation.ReflTransGen TStepRel

def BruteTerminates (n : Nat) : Prop := ∃ fuel, bruteGo fuel n = 1

instance : DecidableEq (Except Err Nat) := fun x y =>
  match x, y with
  | .ok a, .ok b =>
      if h : a = b then .isTrue (congrArg Except.ok h)
      else .isFalse (fun hc => h (Except.ok.inj hc))
  | .error a, .error b =>
      if h : a = b then .isTrue (congrArg Except.error h)
      else .isFalse (fun hc => h (Except.error.inj hc))
  | .ok _, .error _ => .isFalse (fun hc => Except.noConfusion hc)
  | .error _, .ok _ => .isFalse (fun hc => Except.noConfusion hc)

/-!
Computation certificates.

The definitions above mirror the source, but their pattern-matching
recursions elaborate to `brecOn`, which the kernel evaluates slowly.  The
`...R` definitions below are computational twins written directly with
`Nat.rec`, so that ground facts about thousands of inputs can be checked by
kernel reduction; each twin is proved pointwise equal to the corresponding
source-shaped definition, and everything proved about the certificates is
transported back to the source-shaped functions.
-/

/-- `Nat.rec` twin of `nu2go`. -/
def nu2goR (fuel : Nat) : Nat → Nat :=
  Nat.rec (fun _ => 0)
    (fun _ ih n => if n % 2 = 0 ∧ n ≠ 0 then ih (n / 2) + 1 else 0) fuel

/-- `Nat.rec` twin of `nu2N`. -/
def nu2R (n : Nat) : Nat := nu2goR n n

/-- `Nat.rec` twin of `odd_partN`. -/
def odd_partR (n : Nat) : Nat := n / 2 ^ nu2R n

/-- `Nat.rec` twin of `bit_length_go`. -/
def bitlenR (fuel : Nat) : Nat → Nat :=
  Nat.rec (fun _ => 0)
    (fun _ ih n => if n = 0 then 0 else ih (n / 2) + 1) fuel

/-- `Nat.rec` twin of `F6map`. -/
def F6R (n : Nat) : Nat := 3 * odd_partR (3 * n + 2) + 1

/-- `Nat.rec` twin of `E6go`. -/
def E6goR (fuel : Nat) : Nat → Nat :=
  Nat.rec (fun fk => fk)
    (fun _ ih fk => if in_residue_set_mod20 fk C6 then ih (F6R fk) else fk)
    fuel

/-- `Nat.rec` twin of `E6_exit`. -/
def E6R (n : Nat) : Nat :=
  if ¬ in_residue_set_mod20 n C6 then n / 2
  else E6goR (bitlenR (3 * n + 2) (3 * n + 2)) n / 2

/-- `Nat.rec` twin of `F4map`. -/
def F4R (n : Nat) : Nat :=
  3 * odd_partR (3 * odd_partR (3 * odd_partR n + 1) + 1) + 1

/-- `Nat.rec` twin of `microGo` (fuel argument first). -/
def microGoR (a : Nat) (k : Nat) : Nat → Option Nat :=
  Nat.rec (fun _ => none)
    (fun _ ih r =>
      if ¬ in_C4_by_last_digit (a / 2 ^ r) then some (a / 2 ^ r)
      else ih (r + 1)) k

/-- `Nat.rec` twin of `micro_step_checker_C4`. -/
def microR (n : Nat) : Option Nat :=
  let a := 3 * odd_partR n + 1
  microGoR a (nu2R a) 1

/-- `Nat.rec` twin of `stripGo`. -/
def stripGoR (fuel : Nat) : Nat → Sum Nat Nat :=
  Nat.rec (fun a => .inr a)
    (fun _ ih a =>
      if a % 2 = 0 then
        if ¬ in_C4_by_last_digit a then .inl a else ih (a / 2)
      else .inr a) fuel

/-- `Nat.rec` twin of `check_internal_for_leaving_C4`. -/
def checkR (fk : Nat) : Option Nat :=
  match stripGoR (fk / 2 + 1) (fk / 2) with
  | .inl found => some found
  | .inr a =>
      match microR a with
      | some res => some res
      | none => microR (3 * a + 1)

/-- `Nat.rec` twin of `E4go`. -/
def E4goR (fuel : Nat) : Nat → Except Err Nat :=
  Nat.rec (fun _ => .error .internalInvariant)
    (fun _ ih fk =>
      match checkR fk with
      | some found => .ok found
      | none => ih (F4R fk)) fuel

/-- `Nat.rec` twin of `E4_core`. -/
def E4R (n0 : Nat) : Except Err Nat :=
  E4goR (bitlenR (3 * n0 + 2) (3 * n0 + 2) + 1) n0

/-- `Nat.rec` twin of `E0_exit`. -/
def E0R (n : Nat) : Nat :=
  if n % 10 ≠ 0 then n / 2 else 5 * odd_partR (n / 10)

/-- `Nat.rec` twin of `E8_exit`. -/
def E8R (n : Nat) : Nat :=
  if n % 20 ≠ 18 then n / 2
  else (10 * 3 ^ (nu2R ((n + 2) / 20) + 1) * odd_partR ((n + 2) / 20) - 2) / 2

/-- `Nat.rec` twin of `routerStep`.  In the `d = 4` branch the `Int` guard
of `E4_exit` is dropped: it never fires there, because `n % 10 = 4` forces
`n > 0`. -/
def routerStepR (n : Nat) : Except Err Nat :=
  let d := n % 10
  if d = 0 then .ok (E0R n)
  else if d = 1 ∨ d = 3 ∨ d = 5 ∨ d = 7 ∨ d = 9 then .ok (3 * n + 1)
  else if d = 2 then
    .ok (if prefix_is_even n then (n / 2) * 3 + 1 else n / 2)
  else if d = 4 then E4R n
  else if d = 6 then .ok (E6R n)
  else if d = 8 then .ok (E8R n)
  else .error .internalInvariant

/-- Certificate: starting the router at `cur`, some value strictly below
`start` is reached within `fuel` iterations, with no error raised along
the way. -/
def dropGoR (start : Nat) (fuel : Nat) : Nat → Bool :=
  Nat.rec (fun _ => false)
    (fun _ ih cur =>
      if cur < start then true
      else
        match routerStepR cur with
        | .ok v => ih v
        | .error _ => false) fuel

/-- Certificate: `dropGoR n fuel n` holds for every `n` in
`[lo, lo + count)`. -/
def dropAllRouterR (fuel : Nat) (count : Nat) : Nat → Bool :=
  Nat.rec (fun _ => true)
    (fun _ ih lo => dropGoR lo fuel lo && ih (lo + 1)) count

/-- Certificate: iterating the primitive map `T` from `cur` reaches a value
strictly below `start` within `fuel` steps. -/
def dropTgoR (start : Nat) (fuel : Nat) : Nat → Bool :=
  Nat.rec (fun _ => false)
    (fun _ ih cur => if cur < start then true else ih (T cur)) fuel

/-- Certificate: `dropTgoR n fuel n` holds for every `n` in
`[lo, lo + count)`. -/
def dropAllTR (fuel : Nat) (count : Nat) : Nat → Bool :=
  Nat.rec (fun _ => true)
    (fun _ ih lo => dropTgoR lo fuel lo && ih (lo + 1)) count

/-! Unfolding equations for the `Nat.rec` twins (all definitional). -/

theorem nu2goR_zero (n : Nat) : nu2goR 0 n = 0 := rfl

theorem nu2goR_succ (fuel n : Nat) :
    nu2goR (fuel + 1) n =
      if n % 2 = 0 ∧ n ≠ 0 then nu2goR fuel (n / 2) + 1 else 0 := rfl

theorem nu2goR_eq : ∀ fuel n, nu2goR fuel n = nu2go fuel n := by
  intro fuel
  induction fuel with
  | zero => intro n; rfl
  | succ f ih =>
      intro n
      rw [nu2goR_succ, nu2go, ih]

theorem nu2R_eq (n : Nat) : nu2R n = nu2N n := nu2goR_eq n n

theorem odd_partR_eq (n : Nat) : odd_partR n = odd_partN n := by
  unfold odd_partR odd_partN
  rw [nu2R_eq]

theorem bitlenR_succ (fuel n : Nat) :
    bitlenR (fuel + 1) n = if n = 0 then 0 else bitlenR fuel (n / 2) + 1 := rfl

theorem bitlenR_eq : ∀ fuel n, bitlenR fuel n = bit_length_go fuel n := by
  intro fuel
  induction fuel with
  | zero => intro n; rfl
  | succ f ih =>
      intro n
      rw [bitlenR_succ, bit_length_go, ih]

theorem F6R_eq (n : Nat) : F6R n = F6map n := by
  unfold F6R F6map; rw [odd_partR_eq]

theorem E6goR_succ (fuel fk : Nat) :
    E6goR (fuel + 1) fk =
      if in_residue_set_mod20 fk C6 then E6goR fuel (F6R fk) else fk := rfl

theorem E6goR_eq : ∀ fuel fk, E6goR fuel fk = E6go fuel fk := by
  intro fuel
  induction fuel with
  | zero => intro fk; rfl
  | succ f ih =>
      intro fk
      rw [E6goR_succ, E6go, F6R_eq, ih]

theorem E6R_eq (n : Nat) : E6R n = E6_exit n := by
  unfold E6R E6_exit
  rw [E6goR_eq, bitlenR_eq]
  rfl

theorem F4R_eq (n : Nat) : F4R n = F4map n := by
  unfold F4R F4map
  rw [odd_partR_eq, odd_partR_eq, odd_partR_eq]

theorem microGoR_succ (a k r : Nat) :
    microGoR a (k + 1) r =
      if ¬ in_C4_by_last_digit (a / 2 ^ r) then some (a / 2 ^ r)
      else microGoR a k (r + 1) := rfl

theorem microGoR_eq : ∀ k a r, microGoR a k r = microGo a r k := by
  intro k
  induction k with
  | zero => intro a r; rfl
  | succ k ih =>
      intro a r
      rw [microGoR_succ, microGo, ih]

theorem microR_eq (n : Nat) : microR n = micro_step_checker_C4 n := by
  simp only [microR, micro_step_checker_C4, odd_partR_eq, nu2R_eq, microGoR_eq]

theorem stripGoR_succ (fuel a : Nat) :
    stripGoR (fuel + 1) a =
      if a % 2 = 0 then
        if ¬ in_C4_by_last_digit a then .inl a else stripGoR fuel (a / 2)
      else .inr a := rfl

theorem stripGoR_eq : ∀ fuel a, stripGoR fuel a = stripGo fuel a := by
  intro fuel
  induction fuel with
  | zero => intro a; rfl
  | succ f ih =>
      intro a
      rw [stripGoR_succ, stripGo, ih]

theorem checkR_eq (fk : Nat) : checkR fk = check_internal_for_leaving_C4 fk := by
  simp only [checkR, check_internal_for_leaving_C4, stripGoR_eq, microR_eq]

theorem E4goR_succ (fuel fk : Nat) :
    E4goR (fuel + 1) fk =
      match checkR fk with
      | some found => .ok found
      | none => E4goR fuel (F4R fk) := rfl

theorem E4goR_eq : ∀ fuel fk, E4goR fuel fk = E4go fuel fk := by
  intro fuel
  induction fuel with
  | zero => intro fk; rfl
  | succ f ih =>
      intro fk
      rw [E4goR_succ, E4go, checkR_eq, F4R_eq, ih]

theorem E4R_eq (n0 : Nat) : E4R n0 = E4_core n0 := by
  unfold E4R E4_core E4_UB bit_length
  rw [E4goR_eq, bitlenR_eq]

theorem E0R_eq (n : Nat) : E0R n = E0_exit n := by
  unfold E0R E0_exit; rw [odd_partR_eq]

theorem E8R_eq (n : Nat) : E8R n = E8_exit n := by
  unfold E8R E8_exit
  rw [odd_partR_eq, nu2R_eq]

theorem routerStepR_eq (n : Nat) : routerStepR n = routerStep n := by
  unfold routerStepR routerStep E4_exit
  simp only [E0R_eq, E6R_eq, E8R_eq, E4R_eq]
  split_ifs with h0 h19 h2 h4 hneg <;>
    first
    | rfl
    | (exfalso; omega)

/-! ### The 2-adic valuation and the odd part -/

theorem nu2go_spec : ∀ fuel n, 0 < n → n ≤ fuel →
    2 ^ nu2go fuel n ∣ n ∧ (n / 2 ^ nu2go fuel n) % 2 = 1 := by
  intro fuel
  induction fuel with
  | zero => intro n h1 h2; omega
  | succ f ih =>
      intro n h1 h2
      by_cases he : n % 2 = 0
      · have hcond : n % 2 = 0 ∧ n ≠ 0 := ⟨he, by omega⟩
        rw [nu2go, if_pos hcond]
        have h1' : 0 < n / 2 := by omega
        have h2' : n / 2 ≤ f := by omega
        obtain ⟨hd, ho⟩ := ih (n / 2) h1' h2'
        constructor
        · obtain ⟨c, hc⟩ := hd
          set k := nu2go f (n / 2) with hk
          refine ⟨c, ?_⟩
          calc n = 2 * (n / 2) := by omega
            _ = 2 * (2 ^ k * c) := by rw [hc]
            _ = 2 ^ (k + 1) * c := by ring
        · have hsplit : n / 2 ^ (nu2go f (n / 2) + 1)
              = n / 2 / 2 ^ nu2go f (n / 2) := by
            rw [pow_succ, Nat.mul_comm (2 ^ nu2go f (n / 2)) 2,
              Nat.div_div_eq_div_mul]
          rw [hsplit]
          exact ho
      · have hcond : ¬ (n % 2 = 0 ∧ n ≠ 0) := by omega
        rw [nu2go, if_neg hcond]
        simp only [pow_zero, Nat.div_one, one_dvd, true_and]
        omega

theorem odd_part_spec (n : Nat) (h : 0 < n) :
    n = odd_partN n * 2 ^ nu2N n ∧ odd_partN n % 2 = 1 := by
  obtain ⟨hd, ho⟩ := nu2go_spec n n h le_rfl
  refine ⟨?_, ho⟩
  unfold odd_partN nu2N
  exact (Nat.div_mul_cancel hd).symm

theorem odd_partN_pos (n : Nat) (h : 0 < n) : 0 < odd_partN n := by
  obtain ⟨hid, _⟩ := odd_part_spec n h
  by_contra hz
  have hzero : odd_partN n = 0 := by omega
  rw [hzero, Nat.zero_mul] at hid
  omega

theorem pow2_factor_unique : ∀ a m b o : Nat, m % 2 = 1 → o % 2 = 1 →
    2 ^ a * m = 2 ^ b * o → a = b ∧ m = o := by
  intro a
  induction a with
  | zero =>
      intro m b o hm ho heq
      cases b with
      | zero => simpa using heq
      | succ b' =>
          exfalso
          rw [pow_zero, one_mul, pow_succ] at heq
          have h2 : m = 2 * (2 ^ b' * o) := by rw [heq]; ring
          omega
  | succ a' ih =>
      intro m b o hm ho heq
      cases b with
      | zero =>
          exfalso
          rw [pow_zero, one_mul, pow_succ] at heq
          have h2 : o = 2 * (2 ^ a' * m) := by rw [← heq]; ring
          omega
      | succ b' =>
          have heq' : 2 ^ a' * m = 2 ^ b' * o := by
            rw [pow_succ, pow_succ] at heq
            have h2 : 2 * (2 ^ a' * m) = 2 * (2 ^ b' * o) := by
              calc 2 * (2 ^ a' * m) = 2 ^ a' * 2 * m := by ring
                _ = 2 ^ b' * 2 * o := heq
                _ = 2 * (2 ^ b' * o) := by ring
            omega
          obtain ⟨h1, h2⟩ := ih m b' o hm ho heq'
          exact ⟨by omega, h2⟩

theorem nu2_odd_decomp (n a m : Nat) (hm : m % 2 = 1) (h : n = 2 ^ a * m) :
    nu2N n = a ∧ odd_partN n = m := by
  have hn : 0 < n := by
    have : 0 < 2 ^ a * m := Nat.mul_pos (Nat.pos_pow_of_pos a (by omega)) (by omega)
    omega
  obtain ⟨hid, ho⟩ := odd_part_spec n hn
  have := pow2_factor_unique (nu2N n) (odd_partN n) a m ho hm (by
    rw [Nat.mul_comm, ← hid, h])
  exact ⟨this.1, this.2⟩

theorem odd_mul_five (k : Nat) (hk : 0 < k) :
    nu2N (5 * k) = nu2N k ∧ odd_partN (5 * k) = 5 * odd_partN k := by
  obtain ⟨hid, ho⟩ := odd_part_spec k hk
  have hodd : (5 * odd_partN k) % 2 = 1 := by omega
  exact nu2_odd_decomp (5 * k) (nu2N k) (5 * odd_partN k) hodd (by
    calc 5 * k = 5 * (odd_partN k * 2 ^ nu2N k) := by rw [← hid]
      _ = 2 ^ nu2N k * (5 * odd_partN k) := by ring)

theorem odd_mul_twenty (s : Nat) (hs : 0 < s) :
    nu2N (20 * s) = nu2N s + 2 ∧ odd_partN (20 * s) = 5 * odd_partN s := by
  obtain ⟨hid, ho⟩ := odd_part_spec s hs
  have hodd : (5 * odd_partN s) % 2 = 1 := by omega
  exact nu2_odd_decomp (20 * s) (nu2N s + 2) (5 * odd_partN s) hodd (by
    calc 20 * s = 20 * (odd_partN s * 2 ^ nu2N s) := by rw [← hid]
      _ = 2 ^ (nu2N s + 2) * (5 * odd_partN s) := by
          rw [pow_add]
          ring)

/-! ### Residue classifiers -/

theorem inC6_iff (n : Nat) :
    in_residue_set_mod20 n C6 = true ↔
      (n % 20 = 0 ∨ n % 20 = 3 ∨ n % 20 = 5 ∨ n % 20 = 6) := by
  unfold in_residue_set_mod20 C6
  simp [List.contains]

theorem in_C4_false_elim (x : Nat) (h : in_C4_by_last_digit x = false) :
    x = 1 ∨ (x % 10 ≠ 1 ∧ x % 10 ≠ 2 ∧ x % 10 ≠ 4 ∧ x % 10 ≠ 7) := by
  unfold in_C4_by_last_digit at h
  by_cases h1 : x = 1
  · exact Or.inl h1
  · right
    rw [if_neg h1] at h
    simp at h
    omega

theorem in_C4_false_mod10 (x : Nat) (h : in_C4_by_last_digit x = false) :
    x % 10 ≠ 4 := by
  rcases in_C4_false_elim x h with h1 | h2
  · rw [h1]; omega
  · omega

/-! ### Behaviour of `F6` and the `E6` scan on the 6-component -/

theorem F6_mod20_of_6 (fk : Nat) (h : fk % 20 = 6) :
    F6map fk % 20 = 6 ∨ F6map fk % 20 = 16 := by
  have hge : 6 ≤ fk := by omega
  set u := 3 * fk + 2 with hu
  have hs : u = 20 * (u / 20) := by omega
  set s := u / 20 with hsdef
  have hspos : 0 < s := by omega
  obtain ⟨hnu, hop⟩ := odd_mul_twenty s hspos
  obtain ⟨_, hsodd⟩ := odd_part_spec s hspos
  have hF : F6map fk = 3 * (5 * odd_partN s) + 1 := by
    unfold F6map
    rw [← hu, hs, hop]
  obtain ⟨q, hq⟩ : ∃ q, odd_partN s = 2 * q + 1 := ⟨odd_partN s / 2, by omega⟩
  rw [hF, hq]
  omega

theorem E6go_inv (fuel : Nat) : ∀ fk, fk % 20 = 6 ∨ fk % 20 = 16 →
    E6go fuel fk % 20 = 6 ∨ E6go fuel fk % 20 = 16 := by
  induction fuel with
  | zero => intro fk h; exact h
  | succ f ih =>
      intro fk h
      rcases h with h6 | h16
      · rw [E6go, if_pos ((inC6_iff fk).mpr (by omega))]
        exact ih (F6map fk) (F6_mod20_of_6 fk h6)
      · have hmem : ¬ (in_residue_set_mod20 fk C6 = true) := by
          rw [inC6_iff]; omega
        rw [E6go, if_neg hmem]
        exact Or.inr h16

theorem E6_component_exit (n : Nat) (h : n % 10 = 6) :
    E6_exit n % 10 ≠ 6 := by
  have h20 : n % 20 = 6 ∨ n % 20 = 16 := by omega
  rcases h20 with h6 | h16
  · have hmem : in_residue_set_mod20 n C6 = true := (inC6_iff n).mpr (by omega)
    unfold E6_exit
    rw [if_neg (by simp [hmem])]
    rcases E6go_inv (bit_length (3 * n + 2)) n (Or.inl h6) with hx | hx <;> omega
  · have hmem : ¬ (in_residue_set_mod20 n C6 = true) := by
      rw [inC6_iff]; omega
    unfold E6_exit
    rw [if_pos (by simp [hmem])]
    omega

theorem pow3_odd (k : Nat) : 3 ^ k % 2 = 1 := by
  induction k with
  | zero => rfl
  | succ k ih =>
      rw [pow_succ]
      omega

theorem E8_mod10_eq_4 (n : Nat) (h0 : 0 < n) (h : n % 10 = 8) :
    E8_exit n % 10 = 4 := by
  have h20 : n % 20 = 8 ∨ n % 20 = 18 := by omega
  rcases h20 with h8 | h18
  · unfold E8_exit
    rw [if_pos (by omega)]
    omega
  · unfold E8_exit
    rw [if_neg (by omega)]
    show (10 * 3 ^ (nu2N ((n + 2) / 20) + 1) * odd_partN ((n + 2) / 20) - 2) / 2 % 10 = 4
    have hm : 0 < (n + 2) / 20 := by omega
    obtain ⟨_, hodd⟩ := odd_part_spec ((n + 2) / 20) hm
    have hP : (3 ^ (nu2N ((n + 2) / 20) + 1) * odd_partN ((n + 2) / 20)) % 2 = 1 := by
      have h3 := pow3_odd (nu2N ((n + 2) / 20) + 1)
      set x := 3 ^ (nu2N ((n + 2) / 20) + 1)
      set y := odd_partN ((n + 2) / 20)
      obtain ⟨qx, hqx⟩ : ∃ q, x = 2 * q + 1 := ⟨x / 2, by omega⟩
      obtain ⟨qy, hqy⟩ : ∃ q, y = 2 * q + 1 := ⟨y / 2, by omega⟩
      rw [hqx, hqy]
      ring_nf
      omega
    set P := 3 ^ (nu2N ((n + 2) / 20) + 1) * odd_partN ((n + 2) / 20) with hPdef
    have h10 : 10 * 3 ^ (nu2N ((n + 2) / 20) + 1) * odd_partN ((n + 2) / 20) = 10 * P := by
      rw [hPdef]; ring
    rw [h10]
    obtain ⟨q, hq⟩ : ∃ q, P = 2 * q + 1 := ⟨P / 2, by omega⟩
    rw [hq]
    omega

/-! ### The E4 candidate scan only returns values outside the digit cycle -/

theorem microGo_leaves : ∀ k a r v, microGo a r k = some v →
    in_C4_by_last_digit v = false := by
  intro k
  induction k with
  | zero => intro a r v h; exact absurd h (by simp [microGo])
  | succ k ih =>
      intro a r v h
      rw [microGo] at h
      by_cases hc : in_C4_by_last_digit (a / 2 ^ r) = false
      · rw [if_pos (by simp [hc])] at h
        cases h
        exact hc
      · rw [if_neg (by simpa using hc)] at h
        exact ih a (r + 1) v h

theorem micro_leaves (n v : Nat) (h : micro_step_checker_C4 n = some v) :
    in_C4_by_last_digit v = false := by
  unfold micro_step_checker_C4 at h
  exact microGo_leaves _ _ _ _ h

theorem stripGo_leaves : ∀ fuel a v, stripGo fuel a = .inl v →
    in_C4_by_last_digit v = false := by
  intro fuel
  induction fuel with
  | zero => intro a v h; exact absurd h (by simp [stripGo])
  | succ f ih =>
      intro a v h
      rw [stripGo] at h
      by_cases he : a % 2 = 0
      · rw [if_pos he] at h
        by_cases hc : in_C4_by_last_digit a = false
        · rw [if_pos (by simp [hc])] at h
          cases h
          exact hc
        · rw [if_neg (by simpa using hc)] at h
          exact ih (a / 2) v h
      · rw [if_neg he] at h
        cases h

theorem check_leaves (fk v : Nat)
    (h : check_internal_for_leaving_C4 fk = some v) :
    in_C4_by_last_digit v = false := by
  unfold check_internal_for_leaving_C4 at h
  have h2 : (match stripGo (fk / 2 + 1) (fk / 2) with
      | Sum.inl found => some found
      | Sum.inr a =>
        match micro_step_checker_C4 a with
        | some res => some res
        | none => micro_step_checker_C4 (3 * a + 1)) = some v := h
  clear h
  rcases hstrip : stripGo (fk / 2 + 1) (fk / 2) with found | a
  · rw [hstrip] at h2
    have h3 : some found = some v := h2
    cases h3
    exact stripGo_leaves _ _ _ hstrip
  · rw [hstrip] at h2
    have h3 : (match micro_step_checker_C4 a with
        | some res => some res
        | none => micro_step_checker_C4 (3 * a + 1)) = some v := h2
    clear h2
    rcases hmicro : micro_step_checker_C4 a with _ | res
    · rw [hmicro] at h3
      exact micro_leaves _ _ h3
    · rw [hmicro] at h3
      have h4 : some res = some v := h3
      cases h4
      exact micro_leaves _ _ hmicro

theorem E4go_ok_leaves : ∀ fuel fk v, E4go fuel fk = .ok v →
    in_C4_by_last_digit v = false := by
  intro fuel
  induction fuel with
  | zero => intro fk v h; exact absurd h (by simp [E4go])
  | succ f ih =>
      intro fk v h
      rw [E4go] at h
      rcases hchk : check_internal_for_leaving_C4 fk with _ | found
      · rw [hchk] at h
        exact ih (F4map fk) v h
      · rw [hchk] at h
        cases h
        exact check_leaves _ _ hchk

theorem E4go_no_invalid : ∀ fuel fk, E4go fuel fk ≠ .error .invalidInput := by
  intro fuel
  induction fuel with
  | zero => intro fk h; exact absurd h (by simp [E4go])
  | succ f ih =>
      intro fk h
      rw [E4go] at h
      rcases hchk : check_internal_for_leaving_C4 fk with _ | found
      · rw [hchk] at h
        exact ih (F4map fk) h
      · rw [hchk] at h
        cases h

theorem E4_core_ok_leaves (n v : Nat) (h : E4_core n = .ok v) :
    in_C4_by_last_digit v = false :=
  E4go_ok_leaves _ _ _ h

theorem E4_core_no_invalid (n : Nat) : E4_core n ≠ .error .invalidInput :=
  E4go_no_invalid _ _

/-! ### Positivity facts used by the hub pipeline -/

theorem bit_length_go_pos (fuel n : Nat) (h1 : 0 < n) (h2 : 0 < fuel) :
    0 < bit_length_go fuel n := by
  cases fuel with
  | zero => omega
  | succ f =>
      rw [bit_length_go, if_neg (by omega)]
      omega

theorem bit_length_pos (n : Nat) (h : 0 < n) : 0 < bit_length n :=
  bit_length_go_pos n n h h

theorem F6_ge4 (n : Nat) : 4 ≤ F6map n := by
  unfold F6map
  have := odd_partN_pos (3 * n + 2) (by omega)
  omega

theorem E6go_ge4 (fuel : Nat) : ∀ fk, 4 ≤ fk → 4 ≤ E6go fuel fk := by
  induction fuel with
  | zero => intro fk h; exact h
  | succ f ih =>
      intro fk h
      rw [E6go]
      by_cases hmem : in_residue_set_mod20 fk C6 = true
      · rw [if_pos hmem]
        exact ih (F6map fk) (F6_ge4 fk)
      · rw [if_neg hmem]
        exact h

theorem E8_pos (x : Nat) (h : 2 ≤ x) : 1 ≤ E8_exit x := by
  unfold E8_exit
  by_cases h18 : x % 20 = 18
  · rw [if_neg (by omega)]
    show 1 ≤ (10 * 3 ^ (nu2N ((x + 2) / 20) + 1) * odd_partN ((x + 2) / 20) - 2) / 2
    have hm : 0 < (x + 2) / 20 := by omega
    have hr : 1 ≤ odd_partN ((x + 2) / 20) := odd_partN_pos _ hm
    have h3 : 3 ≤ 3 ^ (nu2N ((x + 2) / 20) + 1) := by
      calc 3 = 3 ^ 1 := by norm_num
        _ ≤ 3 ^ (nu2N ((x + 2) / 20) + 1) :=
            Nat.pow_le_pow_right (by omega) (by omega)
    have : 30 ≤ 10 * 3 ^ (nu2N ((x + 2) / 20) + 1) * odd_partN ((x + 2) / 20) :=
      calc 30 = 10 * 3 * 1 := by norm_num
        _ ≤ 10 * 3 ^ (nu2N ((x + 2) / 20) + 1) * odd_partN ((x + 2) / 20) := by
            apply Nat.mul_le_mul
            · exact Nat.mul_le_mul_left 10 h3
            · exact hr
    omega
  · rw [if_pos (by omega)]
    omega

theorem E6_ge2_of_inC6 (a : Nat) (hmem : in_residue_set_mod20 a C6 = true) :
    2 ≤ E6_exit a := by
  unfold E6_exit
  rw [if_neg (by simp [hmem])]
  have hB : 0 < bit_length (3 * a + 2) := bit_length_pos _ (by omega)
  obtain ⟨B, hBdef⟩ : ∃ B, bit_length (3 * a + 2) = B + 1 :=
    ⟨bit_length (3 * a + 2) - 1, by omega⟩
  rw [hBdef, E6go, if_pos hmem]
  have := E6go_ge4 B (F6map a) (F6_ge4 a)
  omega

theorem hub_next_pos (a : Nat) (hc4 : in_C4_by_last_digit a = false)
    (hne : a ≠ 1) : 1 ≤ E8_exit (E6_exit a) := by
  by_cases ha0 : a = 0
  · rw [ha0]
    decide
  · have ha2 : 2 ≤ a := by
      rcases in_C4_false_elim a hc4 with h1 | hmod
      · omega
      · have : a ≠ 1 := hne
        have h2ne : a % 10 ≠ 2 := hmod.2.1
        by_contra hlt
        interval_cases a <;> omega
    by_cases hmem : in_residue_set_mod20 a C6 = true
    · exact E8_pos _ (E6_ge2_of_inC6 a hmem)
    · have ha4 : 4 ≤ a := by
        rcases in_C4_false_elim a hc4 with h1 | hmod
        · omega
        · rw [inC6_iff] at hmem
          by_contra hlt
          interval_cases a <;> omega
      have hE6 : E6_exit a = a / 2 := by
        unfold E6_exit
        rw [if_pos (by simp [hmem])]
      rw [hE6]
      exact E8_pos _ (by omega)

/-! ### The router loop never raises `InvalidInput` -/

theorem routerStep_no_invalid (n : Nat) (h : 10 ≤ n) :
    routerStep n ≠ .error .invalidInput := by
  intro hc
  unfold routerStep E4_exit at hc
  rw [if_neg (show ¬ ((n : Int) ≤ 0) by omega)] at hc
  replace hc : (if n % 10 = 0 then (Except.ok (E0_exit n) : Except Err Nat)
      else if n % 10 = 1 ∨ n % 10 = 3 ∨ n % 10 = 5 ∨ n % 10 = 7 ∨ n % 10 = 9
        then .ok (3 * n + 1)
      else if n % 10 = 2 then
        .ok (if prefix_is_even n then (n / 2) * 3 + 1 else n / 2)
      else if n % 10 = 4 then E4_core ((n : Int)).toNat
      else if n % 10 = 6 then .ok (E6_exit n)
      else if n % 10 = 8 then .ok (E8_exit n)
      else .error .internalInvariant) = .error .invalidInput := hc
  split_ifs at hc <;>
    first
    | exact Except.noConfusion hc
    | exact E4_core_no_invalid _ hc
    | exact absurd (Except.error.inj hc) (by decide)

theorem solveLoop_no_invalid : ∀ fuel n,
    solveLoop fuel n ≠ some (.error .invalidInput) := by
  intro fuel
  induction fuel with
  | zero => intro n h; exact absurd h (by simp [solveLoop])
  | succ f ih =>
      intro n h
      rw [solveLoop] at h
      by_cases hlt : n < 10
      · rw [if_pos hlt] at h
        cases h
      · rw [if_neg hlt] at h
        rcases hstep : routerStep n with e | v
        · rw [hstep] at h
          have h5 : some (Except.error e : Except Err Nat)
              = some (.error .invalidInput) := h
          cases h5
          exact routerStep_no_invalid n (by omega) hstep
        · rw [hstep] at h
          exact ih v h

theorem solveLoop_mono : ∀ f g n r, solveLoop f n = some r → f ≤ g →
    solveLoop g n = some r := by
  intro f
  induction f with
  | zero => intro g n r h _; exact absurd h (by simp [solveLoop])
  | succ f ih =>
      intro g n r h hle
      obtain ⟨g', hg⟩ : ∃ g', g = g' + 1 := ⟨g - 1, by omega⟩
      subst hg
      rw [solveLoop] at h ⊢
      by_cases hlt : n < 10
      · rw [if_pos hlt] at h ⊢
        exact h
      · rw [if_neg hlt] at h ⊢
        rcases hstep : routerStep n with e | v
        · rw [hstep] at h
          exact h
        · rw [hstep] at h
          exact ih g' v r h (by omega)

theorem hubLoop_no_invalid : ∀ fuel (n : Int), 1 ≤ n →
    hubLoop fuel n ≠ some (.error .invalidInput) := by
  intro fuel
  induction fuel with
  | zero => intro n _ h; exact absurd h (by simp [hubLoop])
  | succ f ih =>
      intro n hn h
      rw [hubLoop] at h
      have hE4 : E4_exit n = E4_core n.toNat := by
        unfold E4_exit
        rw [if_neg (by omega)]
      rw [hE4] at h
      rcases hres : E4_core n.toNat with e | a
      · rw [hres] at h
        have h5 : some (Except.error e : Except Err Nat)
            = some (.error .invalidInput) := h
        cases h5
        exact E4_core_no_invalid _ hres
      · rw [hres] at h
        have h5 : (if a = 1 then some (Except.ok 1)
            else hubLoop f ((E8_exit (E6_exit a) : Nat) : Int))
            = some (.error .invalidInput) := h
        clear h
        by_cases ha1 : a = 1
        · rw [if_pos ha1] at h5
          cases h5
        · rw [if_neg ha1] at h5
          have hpos : 1 ≤ E8_exit (E6_exit a) :=
            hub_next_pos a (E4_core_ok_leaves _ _ hres) ha1
          exact ih _ (by omega) h5

theorem solveTerminates_small (n : Nat) (h : n < 10) : SolveTerminates n :=
  ⟨1, by rw [solveLoop, if_pos h]⟩

theorem solveTerminates_step (n v : Nat) (hs : RouterStepRel n v)
    (ht : SolveTerminates v) : SolveTerminates n := by
  obtain ⟨f, hf⟩ := ht
  have h10 := hs.1
  refine ⟨f + 1, ?_⟩
  rw [solveLoop, if_neg (by omega), hs.2]
  exact hf

theorem solveTerminates_reach (n v : Nat) (hr : RouterReaches n v)
    (ht : SolveTerminates v) : SolveTerminates n := by
  induction hr using Relation.ReflTransGen.head_induction_on with
  | refl => exact ht
  | head hstep _ ih => exact solveTerminates_step _ _ hstep ih

theorem dropGoR_zero (start cur : Nat) : dropGoR start 0 cur = false := rfl

theorem dropGoR_succ (start fuel cur : Nat) :
    dropGoR start (fuel + 1) cur =
      if cur < start then true
      else
        match routerStepR cur with
        | .ok v => dropGoR start fuel v
        | .error _ => false := rfl

theorem dropGoR_sound : ∀ fuel start cur, 10 ≤ start →
    dropGoR start fuel cur = true → ∃ v, RouterReaches cur v ∧ v < start := by
  intro fuel
  induction fuel with
  | zero =>
      intro start cur _ h
      rw [dropGoR_zero] at h
      cases h
  | succ f ih =>
      intro start cur hstart h
      rw [dropGoR_succ] at h
      by_cases hlt : cur < start
      · exact ⟨cur, Relation.ReflTransGen.refl, hlt⟩
      · rw [if_neg hlt] at h
        rcases hstep : routerStepR cur with e | v
        · rw [hstep] at h
          cases h
        · rw [hstep] at h
          obtain ⟨w, hw, hwlt⟩ := ih start v hstart h
          refine ⟨w, Relation.ReflTransGen.head ?_ hw, hwlt⟩
          rw [routerStepR_eq] at hstep
          exact ⟨by omega, hstep⟩

theorem dropAllRouterR_succ (fuel count lo : Nat) :
    dropAllRouterR fuel (count + 1) lo =
      (dropGoR lo fuel lo && dropAllRouterR fuel count (lo + 1)) := rfl

theorem dropAllRouterR_sound : ∀ count lo fuel,
    dropAllRouterR fuel count lo = true →
    ∀ n, lo ≤ n → n < lo + count → dropGoR n fuel n = true := by
  intro count
  induction count with
  | zero => intro lo fuel h n h1 h2; omega
  | succ c ih =>
      intro lo fuel h n h1 h2
      rw [dropAllRouterR_succ, Bool.and_eq_true] at h
      by_cases he : n = lo
      · rw [he]; exact h.1
      · exact ih (lo + 1) fuel h.2 n (by omega) (by omega)

theorem T_pos (n : Nat) (h : 1 ≤ n) : 1 ≤ T n := by
  unfold T
  split <;> omega

theorem bruteTerminates_one : BruteTerminates 1 := ⟨1, rfl⟩

theorem bruteTerminates_step (n : Nat) (h : BruteTerminates (T n)) :
    BruteTerminates n := by
  obtain ⟨f, hf⟩ := h
  by_cases h1 : n = 1
  · exact ⟨1, by rw [h1]; rfl⟩
  · refine ⟨f + 1, ?_⟩
    rw [bruteGo, if_neg h1]
    exact hf

theorem bruteTerminates_step2 (a c : Nat) (h : TStepRel a c)
    (ht : BruteTerminates c) : BruteTerminates a := by
  have hT : T a = c := h
  exact bruteTerminates_step a (by rw [hT]; exact ht)

theorem bruteTerminates_reach (n v : Nat) (hr : TReaches n v)
    (ht : BruteTerminates v) : BruteTerminates n := by
  induction hr using Relation.ReflTransGen.head_induction_on with
  | refl => exact ht
  | head hstep _ ih => exact bruteTerminates_step2 _ _ hstep ih

theorem dropTgoR_zero (start cur : Nat) : dropTgoR start 0 cur = false := rfl

theorem dropTgoR_succ (start fuel cur : Nat) :
    dropTgoR start (fuel + 1) cur =
      if cur < start then true else dropTgoR start fuel (T cur) := rfl

theorem dropTgoR_sound : ∀ fuel start cur, 1 ≤ cur →
    dropTgoR start fuel cur = true →
    ∃ v, TReaches cur v ∧ v < start ∧ 1 ≤ v := by
  intro fuel
  induction fuel with
  | zero =>
      intro start cur _ h
      rw [dropTgoR_zero] at h
      cases h
  | succ f ih =>
      intro start cur hcur h
      rw [dropTgoR_succ] at h
      by_cases hlt : cur < start
      · exact ⟨cur, Relation.ReflTransGen.refl, hlt, hcur⟩
      · rw [if_neg hlt] at h
        obtain ⟨w, hw, hwlt, hwpos⟩ := ih start (T cur) (T_pos cur hcur) h
        exact ⟨w, Relation.ReflTransGen.head rfl hw, hwlt, hwpos⟩

theorem dropAllTR_succ (fuel count lo : Nat) :
    dropAllTR fuel (count + 1) lo =
      (dropTgoR lo fuel lo && dropAllTR fuel count (lo + 1)) := rfl

theorem dropAllTR_sound : ∀ count lo fuel,
    dropAllTR fuel count lo = true →
    ∀ n, lo ≤ n → n < lo + count → dropTgoR n fuel n = true := by
  intro count
  induction count with
  | zero => intro lo fuel h n h1 h2; omega
  | succ c ih =>
      intro lo fuel h n h1 h2
      rw [dropAllTR_succ, Bool.and_eq_true] at h
      by_cases he : n = lo
      · rw [he]; exact h.1
      · exact ih (lo + 1) fuel h.2 n (by omega) (by omega)

/-! ### Ground certificates, checked by kernel reduction in chunks -/

set_option maxRecDepth 100000 in
theorem routerChunk0 : dropAllRouterR 300 1000 10 = true := by decide!

set_option maxRecDepth 100000 in
theorem routerChunk1 : dropAllRouterR 300 1000 1010 = true := by decide!

set_option maxRecDepth 100000 in
theorem routerChunk2 : dropAllRouterR 300 1000 2010 = true := by decide!

set_option maxRecDepth 100000 in
theorem routerChunk3 : dropAllRouterR 300 1000 3010 = true := by decide!

set_option maxRecDepth 100000 in
theorem routerChunk4 : dropAllRouterR 300 1000 4010 = true := by decide!

set_option maxRecDepth 100000 in
theorem routerChunk5 : dropAllRouterR 300 1000 5010 = true := by decide!

set_option maxRecDepth 100000 in
theorem routerChunk6 : dropAllRouterR 300 1000 6010 = true := by decide!

set_option maxRecDepth 100000 in
theorem routerChunk7 : dropAllRouterR 300 1000 7010 = true := by decide!

set_option maxRecDepth 100000 in
theorem routerChunk8 : dropAllRouterR 300 1000 8010 = true := by decide!

set_option maxRecDepth 100000 in
theorem routerChunk9 : dropAllRouterR 300 991 9010 = true := by decide!

set_option maxRecDepth 100000 in
theorem tChunk0 : dropAllTR 300 1000 2 = true := by decide!

set_option maxRecDepth 100000 in
theorem tChunk1 : dropAllTR 300 1000 1002 = true := by decide!

set_option maxRecDepth 100000 in
theorem tChunk2 : dropAllTR 300 1000 2002 = true := by decide!

set_option maxRecDepth 100000 in
theorem tChunk3 : dropAllTR 300 1000 3002 = true := by decide!

set_option maxRecDepth 100000 in
theorem tChunk4 : dropAllTR 300 1000 4002 = true := by decide!

set_option maxRecDepth 100000 in
theorem tChunk5 : dropAllTR 300 1000 5002 = true := by decide!

set_option maxRecDepth 100000 in
theorem tChunk6 : dropAllTR 300 1000 6002 = true := by decide!

set_option maxRecDepth 100000 in
theorem tChunk7 : dropAllTR 300 1000 7002 = true := by decide!

set_option maxRecDepth 100000 in
theorem tChunk8 : dropAllTR 300 1000 8002 = true := by decide!

set_option maxRecDepth 100000 in
theorem tChunk9 : dropAllTR 300 999 9002 = true := by decide!

theorem routerDrop_all (n : Nat) (h1 : 10 ≤ n) (h2 : n ≤ 10000) :
    dropGoR n 300 n = true := by
  by_cases ha : n < 1010
  · exact dropAllRouterR_sound 1000 10 300 routerChunk0 n (by omega) (by omega)
  by_cases hb : n < 2010
  · exact dropAllRouterR_sound 1000 1010 300 routerChunk1 n (by omega) (by omega)
  by_cases hc : n < 3010
  · exact dropAllRouterR_sound 1000 2010 300 routerChunk2 n (by omega) (by omega)
  by_cases hd : n < 4010
  · exact dropAllRouterR_sound 1000 3010 300 routerChunk3 n (by omega) (by omega)
  by_cases he : n < 5010
  · exact dropAllRouterR_sound 1000 4010 300 routerChunk4 n (by omega) (by omega)
  by_cases hf : n < 6010
  · exact dropAllRouterR_sound 1000 5010 300 routerChunk5 n (by omega) (by omega)
  by_cases hg : n < 7010
  · exact dropAllRouterR_sound 1000 6010 300 routerChunk6 n (by omega) (by omega)
  by_cases hh : n < 8010
  · exact dropAllRouterR_sound 1000 7010 300 routerChunk7 n (by omega) (by omega)
  by_cases hi : n < 9010
  · exact dropAllRouterR_sound 1000 8010 300 routerChunk8 n (by omega) (by omega)
  exact dropAllRouterR_sound 991 9010 300 routerChunk9 n (by omega) (by omega)

theorem tDrop_all (n : Nat) (h1 : 2 ≤ n) (h2 : n ≤ 10000) :
    dropTgoR n 300 n = true := by
  by_cases ha : n < 1002
  · exact dropAllTR_sound 1000 2 300 tChunk0 n (by omega) (by omega)
  by_cases hb : n < 2002
  · exact dropAllTR_sound 1000 1002 300 tChunk1 n (by omega) (by omega)
  by_cases hc : n < 3002
  · exact dropAllTR_sound 1000 2002 300 tChunk2 n (by omega) (by omega)
  by_cases hd : n < 4002
  · exact dropAllTR_sound 1000 3002 300 tChunk3 n (by omega) (by omega)
  by_cases he : n < 5002
  · exact dropAllTR_sound 1000 4002 300 tChunk4 n (by omega) (by omega)
  by_cases hf : n < 6002
  · exact dropAllTR_sound 1000 5002 300 tChunk5 n (by omega) (by omega)
  by_cases hg : n < 7002
  · exact dropAllTR_sound 1000 6002 300 tChunk6 n (by omega) (by omega)
  by_cases hh : n < 8002
  · exact dropAllTR_sound 1000 7002 300 tChunk7 n (by omega) (by omega)
  by_cases hi : n < 9002
  · exact dropAllTR_sound 1000 8002 300 tChunk8 n (by omega) (by omega)
  exact dropAllTR_sound 999 9002 300 tChunk9 n (by omega) (by omega)

theorem solveTerminates_all (n : Nat) (h2 : n ≤ 10000) : SolveTerminates n := by
  induction n using Nat.strong_induction_on with
  | _ n ih =>
      by_cases hlt : n < 10
      · exact solveTerminates_small n hlt
      · obtain ⟨v, hv, hvlt⟩ :=
          dropGoR_sound 300 n n (by omega) (routerDrop_all n (by omega) h2)
        exact solveTerminates_reach n v hv (ih v hvlt (by omega))

theorem bruteTerminates_all (n : Nat) (h1 : 1 ≤ n) (h2 : n ≤ 10000) :
    BruteTerminates n := by
  induction n using Nat.strong_induction_on with
  | _ n ih =>
      by_cases hone : n = 1
      · rw [hone]; exact bruteTerminates_one
      · obtain ⟨v, hv, hvlt, hvpos⟩ :=
          dropTgoR_sound 300 n n (by omega) (tDrop_all n (by omega) h2)
        exact bruteTerminates_reach n v hv (ih v hvlt (by omega) (by omega))

/-! ### Run decomposition of the E6 bounded scan -/

theorem E6go_run : ∀ fuel fk, ∃ k, k ≤ fuel ∧ E6go fuel fk = F6map^[k] fk ∧
    (∀ j, j < k → in_residue_set_mod20 (F6map^[j] fk) C6 = true) ∧
    (k < fuel → in_residue_set_mod20 (F6map^[k] fk) C6 = false) := by
  intro fuel
  induction fuel with
  | zero =>
      intro fk
      exact ⟨0, le_rfl, rfl, fun j hj => absurd hj (by omega),
        fun h => absurd h (by omega)⟩
  | succ f ih =>
      intro fk
      by_cases hmem : in_residue_set_mod20 fk C6 = true
      · obtain ⟨k, hk1, hk2, hk3, hk4⟩ := ih (F6map fk)
        refine ⟨k + 1, by omega, ?_, ?_, ?_⟩
        · rw [E6go, if_pos hmem, hk2, Function.iterate_succ_apply]
        · intro j hj
          cases j with
          | zero => simpa using hmem
          | succ j' =>
              rw [Function.iterate_succ_apply]
              exact hk3 j' (by omega)
        · intro hlt
          rw [Function.iterate_succ_apply]
          exact hk4 (by omega)
      · refine ⟨0, by omega, ?_, fun j hj => absurd hj (by omega), ?_⟩
        · rw [E6go, if_neg hmem]
          rfl
        · intro _
          simpa using hmem

/-! ## The claims -/

/-- C1: the spec (and the source docstring) derive the E4 iteration cap as
`UB = bitLength(3*n0+2) + valuation2(3*n0+2)`, but the code computes only
`UB = bitLength(3*n0+2)`.  At `n0 = 2` the code's cap is `4` while the
specified cap is `4 + 3 = 7`; the scan structure (at most `UB + 1`
iterations, then an internal-invariant failure) is as described. -/
theorem C1_cap_mismatch :
    E4_UB 2 = 4 ∧ bit_length (3 * 2 + 2) + nu2N (3 * 2 + 2) = 7 ∧
    E4_core 2 = E4go (E4_UB 2 + 1) 2 ∧ E4go 0 2 = .error .internalInvariant := by
  refine ⟨by decide, by decide, rfl, rfl⟩

/-- C2: each exit map, applied to a positive value of its home last-digit
component, returns a value outside that component (for E4, whenever the
bounded scan returns at all). -/
theorem C2_eventual_exit :
    (∀ n, 0 < n → n % 10 = 0 → E0_exit n % 10 ≠ 0)
  ∧ (∀ (n v : Nat), 0 < n → n % 10 = 4 → E4_exit (n : Int) = .ok v → v % 10 ≠ 4)
  ∧ (∀ n, 0 < n → n % 10 = 6 → E6_exit n % 10 ≠ 6)
  ∧ (∀ n, 0 < n → n % 10 = 8 → E8_exit n % 10 ≠ 8) := by
  refine ⟨?_, ?_, ?_, ?_⟩
  · intro n hpos h
    unfold E0_exit
    rw [if_neg (by omega)]
    have hk : 0 < n / 10 := by omega
    obtain ⟨_, ho⟩ := odd_part_spec (n / 10) hk
    obtain ⟨q, hq⟩ : ∃ q, odd_partN (n / 10) = 2 * q + 1 :=
      ⟨odd_partN (n / 10) / 2, by omega⟩
    rw [hq]
    omega
  · intro n v hpos h4 hok
    unfold E4_exit at hok
    rw [if_neg (by omega), Int.toNat_natCast] at hok
    exact in_C4_false_mod10 v (E4_core_ok_leaves n v hok)
  · intro n _ h
    exact E6_component_exit n h
  · intro n hpos h
    have := E8_mod10_eq_4 n hpos h
    omega

/-- C3: for every positive `n`, `n = oddPart(n) * 2^valuation2(n)` and
`oddPart(n)` is odd. -/
theorem C3_odd_part_identity (n : Nat) (h : 0 < n) :
    n = odd_partN n * 2 ^ nu2N n ∧ Odd (odd_partN n) := by
  obtain ⟨hid, ho⟩ := odd_part_spec n h
  exact ⟨hid, Nat.odd_iff.mpr ho⟩

/-- C4: on its home component (`n % 10 = 0`), `E0` agrees with one
primitive step followed by a full odd-part strip, and equals
`5 * oddPart(n / 10)`. -/
theorem C4_E0_refines_T (n : Nat) (h0 : 0 < n) (h : n % 10 = 0) :
    E0_exit n = odd_partN (T n) ∧ E0_exit n = 5 * odd_partN (n / 10) := by
  have hk : 0 < n / 10 := by omega
  have hT : T n = 5 * (n / 10) := by
    unfold T
    rw [if_pos (by omega)]
    omega
  have hE0 : E0_exit n = 5 * odd_partN (n / 10) := by
    unfold E0_exit
    rw [if_neg (by omega)]
  refine ⟨?_, hE0⟩
  rw [hE0, hT, (odd_mul_five (n / 10) hk).2]

/-- C5: on the `18 (mod 20)` class, writing `n = 20m - 2`, `E8` returns
`(10 * 3^(ν₂(m)+1) * odd(m) - 2) / 2`; in particular `E8(18) = 14`. -/
theorem C5_E8_closed_form :
    (∀ m, 1 ≤ m →
      E8_exit (20 * m - 2) = (10 * 3 ^ (nu2N m + 1) * odd_partN m - 2) / 2)
  ∧ E8_exit 18 = 14 := by
  refine ⟨?_, by decide⟩
  intro m hm
  unfold E8_exit
  rw [if_neg (by omega)]
  show (10 * 3 ^ (nu2N ((20 * m - 2 + 2) / 20) + 1)
      * odd_partN ((20 * m - 2 + 2) / 20) - 2) / 2
    = (10 * 3 ^ (nu2N m + 1) * odd_partN m - 2) / 2
  have hmm : (20 * m - 2 + 2) / 20 = m := by omega
  rw [hmm]

/-- C6: `E6` returns `n/2` off the residue set `{0,3,5,6} (mod 20)`;
on it, `E6` is a bounded scan of at most `bitLength(3n+2)` applications of
`F6(n) = 3*oddPart(3n+2)+1`, stopping as soon as the value leaves the set,
and returns the final value halved; concretely `E6(6) = 8`. -/
theorem C6_E6_behaviour :
    (∀ n, ¬(n % 20 = 0 ∨ n % 20 = 3 ∨ n % 20 = 5 ∨ n % 20 = 6) →
      E6_exit n = n / 2)
  ∧ (∀ n, F6map n = 3 * odd_partN (3 * n + 2) + 1)
  ∧ (∀ n, (n % 20 = 0 ∨ n % 20 = 3 ∨ n % 20 = 5 ∨ n % 20 = 6) →
      ∃ k, k ≤ bit_length (3 * n + 2) ∧
        E6_exit n = F6map^[k] n / 2 ∧
        (∀ j, j < k → (F6map^[j] n % 20 = 0 ∨ F6map^[j] n % 20 = 3 ∨
          F6map^[j] n % 20 = 5 ∨ F6map^[j] n % 20 = 6)) ∧
        (k < bit_length (3 * n + 2) →
          ¬(F6map^[k] n % 20 = 0 ∨ F6map^[k] n % 20 = 3 ∨
            F6map^[k] n % 20 = 5 ∨ F6map^[k] n % 20 = 6)))
  ∧ E6_exit 6 = 8 := by
  refine ⟨?_, fun n => rfl, ?_, by decide⟩
  · intro n hmod
    have hmem : in_residue_set_mod20 n C6 = false := by
      rw [← Bool.not_eq_true, inC6_iff]
      exact hmod
    unfold E6_exit
    rw [if_pos (by simp [hmem])]
  · intro n hmod
    have hmem : in_residue_set_mod20 n C6 = true := (inC6_iff n).mpr hmod
    obtain ⟨k, hk1, hk2, hk3, hk4⟩ := E6go_run (bit_length (3 * n + 2)) n
    refine ⟨k, hk1, ?_, ?_, ?_⟩
    · unfold E6_exit
      rw [if_neg (by simp [hmem]), hk2]
    · intro j hj
      exact (inC6_iff _).mp (hk3 j hj)
    · intro hlt hbad
      have := hk4 hlt
      rw [(inC6_iff _).mpr hbad] at this
      cases this

/-- C7: for every `n` in `[1, 10000]`, the reduced solver returns 1 (for
sufficient fuel), and brute-force iteration of the primitive map `T` also
reaches 1. -/
theorem C7_solve_regression (n : Nat) (h1 : 1 ≤ n) (h2 : n ≤ 10000) :
    (∃ fuel, reduced_collatz_solver fuel (n : Int) = some (.ok 1)) ∧
    (∃ fuel, bruteGo fuel n = 1) := by
  constructor
  · obtain ⟨f, hf⟩ := solveTerminates_all n h2
    refine ⟨f, ?_⟩
    unfold reduced_collatz_solver
    rw [if_neg (by omega), Int.toNat_natCast]
    exact hf
  · exact bruteTerminates_all n h1 h2

/-- C8: `valuation2`, `E4` and both top-level solvers raise `InvalidInput`
exactly for `n ≤ 0`, and the error is surfaced to the caller unmodified
(the hub needs at least one loop iteration to run `E4`). -/
theorem C8_invalid_input :
    (∀ n : Int, nu2 n = .error .invalidInput ↔ n ≤ 0)
  ∧ (∀ n : Int, E4_exit n = .error .invalidInput ↔ n ≤ 0)
  ∧ (∀ (fuel : Nat) (n : Int),
      reduced_collatz_solver fuel n = some (.error .invalidInput) ↔ n ≤ 0)
  ∧ (∀ (fuel : Nat) (n : Int), 1 ≤ fuel →
      (solve_C4_hub fuel n = some (.error .invalidInput) ↔ n ≤ 0)) := by
  refine ⟨?_, ?_, ?_, ?_⟩
  · intro n
    unfold nu2
    split_ifs with h
    · simp [h]
    · simp [h]
  · intro n
    unfold E4_exit
    split_ifs with h
    · simp [h]
    · exact iff_of_false (E4_core_no_invalid _) h
  · intro fuel n
    unfold reduced_collatz_solver
    split_ifs with h
    · simp [h]
    · refine iff_of_false ?_ h
      exact solveLoop_no_invalid fuel n.toNat
  · intro fuel n hfuel
    constructor
    · intro h
      by_contra hneg
      exact hubLoop_no_invalid fuel n (by omega) h
    · intro h
      obtain ⟨f, rfl⟩ : ∃ f, fuel = f + 1 := ⟨fuel - 1, by omega⟩
      show hubLoop (f + 1) n = _
      rw [hubLoop]
      have hE : E4_exit n = .error .invalidInput := by
        unfold E4_exit
        rw [if_pos h]
      rw [hE]

/-- C9: on the whole `8` component, `E8` lands in the `4` component: both
the plain-halving branch and the closed-form branch end in last digit 4. -/
theorem C9_E8_lands_in_4 (n : Nat) (h0 : 0 < n) (h : n % 10 = 8) :
    E8_exit n % 10 = 4 :=
  E8_mod10_eq_4 n h0 h

/-- C10: `oddPart` raises `InvalidInput` for every `n ≤ 0`, through its
internal `valuation2` call. -/
theorem C10_odd_part_raises (n : Int) (h : n ≤ 0) :
    odd_part n = .error .invalidInput := by
  unfold odd_part nu2
  rw [if_pos h]

/-! ## Witnesses -/

/-- Witness for C2 at concrete inputs of all four components. -/
theorem C2_witness :
    E0_exit 20 % 10 ≠ 0 ∧ (26 : Nat) % 10 ≠ 4 ∧ E6_exit 6 % 10 ≠ 6 ∧
    E8_exit 18 % 10 ≠ 8 :=
  ⟨C2_eventual_exit.1 20 (by decide) (by decide),
   C2_eventual_exit.2.1 14 26 (by decide) (by decide) (by decide),
   C2_eventual_exit.2.2.1 6 (by decide) (by decide),
   C2_eventual_exit.2.2.2 18 (by decide) (by decide)⟩

/-- Witness for C3 at `n = 12`. -/
theorem C3_witness : 12 = odd_partN 12 * 2 ^ nu2N 12 ∧ Odd (odd_partN 12) :=
  C3_odd_part_identity 12 (by decide)

/-- Witness for C4 at `n = 20`. -/
theorem C4_witness :
    E0_exit 20 = odd_partN (T 20) ∧ E0_exit 20 = 5 * odd_partN (20 / 10) :=
  C4_E0_refines_T 20 (by decide) (by decide)

/-- Witness for C5 at `m = 2` (that is, `n = 38`). -/
theorem C5_witness :
    E8_exit (20 * 2 - 2) = (10 * 3 ^ (nu2N 2 + 1) * odd_partN 2 - 2) / 2 :=
  C5_E8_closed_form.1 2 (by decide)

/-- Witness for C6 at `n = 2` (off the residue set) and `n = 6` (on it). -/
theorem C6_witness :
    E6_exit 2 = 2 / 2 ∧
    (∃ k, k ≤ bit_length (3 * 6 + 2) ∧
      E6_exit 6 = F6map^[k] 6 / 2 ∧
      (∀ j, j < k → (F6map^[j] 6 % 20 = 0 ∨ F6map^[j] 6 % 20 = 3 ∨
        F6map^[j] 6 % 20 = 5 ∨ F6map^[j] 6 % 20 = 6)) ∧
      (k < bit_length (3 * 6 + 2) →
        ¬(F6map^[k] 6 % 20 = 0 ∨ F6map^[k] 6 % 20 = 3 ∨
          F6map^[k] 6 % 20 = 5 ∨ F6map^[k] 6 % 20 = 6))) :=
  ⟨C6_E6_behaviour.1 2 (by decide), C6_E6_behaviour.2.2.1 6 (by decide)⟩

/-- Witness for C7 at `n = 27`. -/
theorem C7_witness :
    (∃ fuel, reduced_collatz_solver fuel ((27 : Nat) : Int) = some (.ok 1)) ∧
    (∃ fuel, bruteGo fuel 27 = 1) :=
  C7_solve_regression 27 (by decide) (by decide)

/-- Witness for C8 at `n = -3` with hub fuel 7. -/
theorem C8_witness :
    nu2 (-3) = .error .invalidInput ∧
    E4_exit (-3) = .error .invalidInput ∧
    reduced_collatz_solver 7 (-3) = some (.error .invalidInput) ∧
    solve_C4_hub 7 (-3) = some (.error .invalidInput) :=
  ⟨(C8_invalid_input.1 (-3)).mpr (by decide),
   (C8_invalid_input.2.1 (-3)).mpr (by decide),
   (C8_invalid_input.2.2.1 7 (-3)).mpr (by decide),
   (C8_invalid_input.2.2.2 7 (-3) (by decide)).mpr (by decide)⟩

/-- Witness for C9 at both branches: `n = 8` and `n = 18`. -/
theorem C9_witness : E8_exit 8 % 10 = 4 ∧ E8_exit 18 % 10 = 4 :=
  ⟨C9_E8_lands_in_4 8 (by decide) (by decide),
   C9_E8_lands_in_4 18 (by decide) (by decide)⟩

/-- Witness for C10 at `n = 0` and `n = -5`. -/
theorem C10_witness :
    odd_part 0 = .error .invalidInput ∧ odd_part (-5) = .error .invalidInput :=
  ⟨C10_odd_part_raises 0 (by decide), C10_odd_part_raises (-5) (by decide)⟩
